import Mathlib

/-!
Verification development for the market-news-mail repository.

This file gives a shallow embedding, in Lean 4, of the rule-matching filter
engine (`filter_engine.py`), the content-fingerprint deduplication ledger
(`src/src/data/hash_database_manager.py`, plus the articles-database hash of
`database_manager.py`), and the pipeline orchestrator
(`src/src/core/processor.py`, function `process_rss_awards`), followed by
theorems settling the specification claims about them.

Modelling conventions:
* Python `dict` records are embedded as association lists `List (String × FieldVal)`
  with first-binding lookup (Python dict keys are unique; `setField` replaces in
  place, preserving insertion order, exactly as CPython dict assignment does).
* Python's `re` module is external; it is modelled by a `RegexEngine` value whose
  `compile` either fails (modelling `re.error` / the `ValueError` raised by
  `_compile_regex`) or yields a search predicate.  The per-engine compiled-pattern
  cache of `FilterEngine` is observationally transparent because `compile` is a
  pure function of (pattern, flags), so it is not modelled as state.
* `hashlib.md5(...).hexdigest()` is external; it is modelled by an arbitrary
  function parameter `md5 : String → String` applied to the exact content string
  the source builds.  Every claim below is either independent of the digest
  function or quantified over it / instantiated at a concrete choice.
* The ledger database table is embedded as a list of rows ordered most recent
  first; `INSERT OR REPLACE` on the `content_hash` primary key removes the old
  row and puts the fresh row at the front (its `processed_at` is `datetime.now()`,
  the newest timestamp), and `ORDER BY processed_at DESC LIMIT n` is `List.take n`.
* Exceptions caught by the source's blanket `except` handlers are modelled by the
  value the handler returns; the embedded functions are total, so "never raises"
  corresponds to totality of the embedding.
-/

set_option maxRecDepth 4000

namespace MarketNewsMail

/-- A value stored in a record field: Python `None`, a string, or an int
(ints appear only as the `filter_priority` annotation). -/
inductive FieldVal where
  | null
  | str (s : String)
  | int (n : Int)
deriving DecidableEq, Repr

/-- A record (Python dict) as an association list with unique keys. -/
abbrev Article := List (String × FieldVal)

/-- `article[field]` lookup: first binding, `none` when the key is absent
(Python `dict.get(field)` with no default returns `None` for a missing key). -/
def getField (a : Article) (f : String) : Option FieldVal :=
  (a.find? (fun p => p.1 == f)).map Prod.snd

/-- `article.get(field, '')`: missing keys default to the empty string. -/
def getFieldD (a : Article) (f : String) : FieldVal :=
  (getField a f).getD (.str "")

/-- Python `str(value)` for the field values we model.  Used only where the
source itself calls `str()` (`_match_condition`, filter_engine.py lines
78-79, where the stored-`None` case is already guarded away). -/
def fieldValStr : FieldVal → String
  | .null => "None"
  | .str s => s
  | .int n => toString n

/-- Python dict assignment `d[f] = v`: replaces the existing binding in place
(keeping its position) or appends a new binding at the end. -/
def setField (a : Article) (f : String) (v : FieldVal) : Article :=
  if a.any (fun p => p.1 == f) then
    a.map (fun p => if p.1 == f then (f, v) else p)
  else
    a ++ [(f, v)]

/-- `FilterOperator` of filter_engine.py (per-condition combinator). -/
inductive FilterOperator where
  | and
  | or
  | not
deriving DecidableEq, Repr

/-- `MatchType` of filter_engine.py. -/
inductive MatchType where
  | contains
  | exact
  | regex
  | starts_with
  | ends_with
deriving DecidableEq, Repr

/-- `FilterCondition` of filter_engine.py.  The source's `value: Any` is used
only through `str(condition.value)`, so it is embedded as the resulting string. -/
structure FilterCondition where
  field : String
  value : String
  match_type : MatchType
  case_sensitive : Bool
  operator : FilterOperator
deriving DecidableEq, Repr

/-- `FilterRule` of filter_engine.py.  The `created_at` timestamp is omitted:
it is never read by any engine operation. -/
structure FilterRule where
  name : String
  conditions : List FilterCondition
  priority : Int
  is_active : Bool
deriving DecidableEq, Repr

/-- Python `s.lower()` (kernel-computable: structural recursion over the
character list, unlike core `String.toLower`). -/
def strToLower (s : String) : String :=
  String.mk (s.data.map Char.toLower)

/-- Python `s.strip()`: drop leading and trailing whitespace.  Modelled with
`Char.isWhitespace` (Python strips a slightly larger Unicode class; no claim
depends on the difference). -/
def strTrim (s : String) : String :=
  String.mk (((s.data.dropWhile Char.isWhitespace).reverse.dropWhile Char.isWhitespace).reverse)

/-- Python `s[:n]`: the first `n` characters (code points). -/
def strTake (s : String) (n : Nat) : String :=
  String.mk (s.data.take n)

/-- Python `s.startswith(pre)`. -/
def strStartsWith (s pre : String) : Bool :=
  pre.data.isPrefixOf s.data

/-- Python `s.endswith(suf)`. -/
def strEndsWith (s suf : String) : Bool :=
  suf.data.isSuffixOf s.data

/-- Helper for Python's `needle in hay` substring test: true iff `needle`
occurs as a contiguous run in `hay` (the empty needle occurs in every string). -/
def infixAux (needle : List Char) : List Char → Bool
  | [] => needle.isEmpty
  | c :: rest => needle.isPrefixOf (c :: rest) || infixAux needle rest

/-- Python `needle in hay` on strings. -/
def strContainsSub (hay needle : String) : Bool :=
  infixAux needle.data hay.data

/-- Model of the external Python `re` module: `compile pattern ignoreCase`
either fails (an invalid pattern: `re.compile` raises `re.error`, which
`FilterEngine._compile_regex` converts to `ValueError`) or yields the
`pattern.search`-style predicate "matches somewhere in the text". -/
structure RegexEngine where
  compile : String → Bool → Except String (String → Bool)

/-- Body of `FilterEngine._match_condition` after the field lookup
(filter_engine.py lines 74-111): the stored-`None` guard, case folding, and
the per-match-type test.  The final blanket `except Exception: return False`
is modelled by the `.error => false` branch of the regex case (the only
failing operation in the embedded fragment); the function is total, so no
exception escapes. -/
def match_on_value (E : RegexEngine) (field_value : FieldVal) (c : FilterCondition) : Bool :=
  match field_value with
  | .null => false
  | fv =>
    let field_str0 := fieldValStr fv
    let field_str := if c.case_sensitive then field_str0 else strToLower field_str0
    let condition_value := if c.case_sensitive then c.value else strToLower c.value
    match c.match_type with
    | .contains => strContainsSub field_str condition_value
    | .exact => field_str == condition_value
    | .regex =>
      match E.compile condition_value (!c.case_sensitive) with
      | .error _ => false
      | .ok search => search field_str
    | .starts_with => strStartsWith field_str condition_value
    | .ends_with => strEndsWith field_str condition_value

/-- `FilterEngine._match_condition` (filter_engine.py lines 69-111):
`field_value = article.get(condition.field, '')` followed by the body above. -/
def match_condition (E : RegexEngine) (article : Article) (c : FilterCondition) : Bool :=
  match_on_value E (getFieldD article c.field) c

/-- The per-condition result fed into the fold: the raw match result, inverted
first when the condition's combinator is NOT (lines 120-127). -/
def condResult (E : RegexEngine) (article : Article) (c : FilterCondition) : Bool :=
  let r := match_condition E article c
  if c.operator = .not then !r else r

/-- One step of the loop of `_evaluate_logical_expression` (lines 141-147):
AND conjoins, OR disjoins, and any other combinator (NOT) leaves the
accumulator unchanged (neither `if` branch fires). -/
def evalStep (acc : Bool) (p : Bool × FilterOperator) : Bool :=
  match p.2 with
  | .and => acc && p.1
  | .or => acc || p.1
  | .not => acc

/-- `FilterEngine._evaluate_logical_expression` (lines 132-149). -/
def evaluate_logical_expression (results : List (Bool × FilterOperator)) : Bool :=
  match results with
  | [] => false
  | r0 :: rest => rest.foldl evalStep r0.1

/-- `FilterEngine._evaluate_rule` (lines 113-130). -/
def evaluate_rule (E : RegexEngine) (article : Article) (rule : FilterRule) : Bool :=
  if rule.is_active = false ∨ rule.conditions = [] then false
  else
    evaluate_logical_expression
      (rule.conditions.map (fun c => (condResult E article c, c.operator)))

/-- The annotated copy built inside `apply_rule` (lines 162-164):
`article_copy['matched_rule'] = rule.name; article_copy['filter_priority'] = rule.priority`. -/
def tagWithRule (a : Article) (rule : FilterRule) : Article :=
  setField (setField a "matched_rule" (.str rule.name)) "filter_priority" (.int rule.priority)

/-- `FilterEngine.apply_rule` (lines 151-172).  Note the source returns the
input list unchanged when the rule is inactive. -/
def apply_rule (E : RegexEngine) (articles : List Article) (rule : FilterRule) :
    List Article :=
  if rule.is_active = false then articles
  else
    articles.filterMap (fun a =>
      if evaluate_rule E a rule then some (tagWithRule a rule) else none)

/-- Stable insertion keeping priority-descending order: the new rule is placed
after every rule of strictly greater priority and before the first rule of
lower-or-equal priority. -/
def insertByPriority (x : FilterRule) : List FilterRule → List FilterRule
  | [] => [x]
  | y :: ys => if x.priority < y.priority then y :: insertByPriority x ys else x :: y :: ys

/-- `sorted(rules, key=priority, reverse=True)` (line 180): Python's sort is
stable, and with `reverse=True` elements of equal priority keep their original
relative order; this insertion sort computes exactly that stable descending
sort (sortedness and stability are proved below). -/
def sortRulesDesc (l : List FilterRule) : List FilterRule :=
  l.foldr insertByPriority []

/-- `article.get('link')` — the deduplication key of `apply_rules`
(filter_engine.py line 190).  Python's `dict.get` returns `None` both when
the key is missing and when the stored value is `None`; both cases are
modelled as `Option.none`, so a record with no link and a record whose link
is stored `None` share one key, exactly as in the source. -/
def getLink (a : Article) : Option FieldVal :=
  match getField a "link" with
  | some .null => none
  | v => v

/-- One step of the inner loop of `apply_rules` (lines 189-192): emit the
article and record its link unless the link was already seen. -/
def dedupStep (acc : List Article × List (Option FieldVal)) (a : Article) :
    List Article × List (Option FieldVal) :=
  if getLink a ∈ acc.2 then acc else (acc.1 ++ [a], getLink a :: acc.2)

/-- `FilterEngine.apply_rules` (lines 174-195).  Note the source returns the
input list unchanged when `rules` is the empty list. -/
def apply_rules (E : RegexEngine) (articles : List Article) (rules : List FilterRule) :
    List Article :=
  if rules = [] then articles
  else
    let sorted := sortRulesDesc (rules.filter (fun r => r.is_active))
    (sorted.foldl (fun acc rule => (apply_rule E articles rule).foldl dedupStep acc)
      ([], [])).1

/-- A row of the `processed_hashes` table of hash_database_manager.py
(`content_hash` is the primary key; `processed_at` is modelled by the row's
position in the ledger list, most recent first). -/
structure LedgerEntry where
  content_hash : String
  title : String
  company_name : String
  article_link : String
deriving DecidableEq, Repr

/-- The hash-ledger database state: rows ordered most recent first. -/
abbrev Ledger := List LedgerEntry

/-- `article.get(f, '').strip()` for the title/summary reads of
`generate_content_hash` (hash_database_manager.py lines 60-61): a missing key
defaults to `''` and is trimmed; a stored string is trimmed.  On a stored
`None` (or int) the source would raise `AttributeError` at `.strip()` — there
is no handler inside `filter_new_articles`, so such records never reach a
fingerprint; the total embedding returns `""` there, and no theorem below
relies on that out-of-domain value. -/
def strip_field (a : Article) (f : String) : String :=
  match getFieldD a f with
  | .str s => strTrim s
  | _ => ""

/-- Lines 62-65 of hash_database_manager.py:
`link = article.get('link', '')` (the RAW stored value, no `str()` call)
followed by `stable_link = link[:100] if link else ""`.  The `if link` test is
Python truthiness: a stored `None`, the `''` default for a missing key, and
the empty string are all falsy and give the EMPTY stabilizer; a non-empty
string is truthy and is sliced to its first 100 characters.  (A truthy
non-string would raise `TypeError` at the slice — links only ever hold text
or `None`; the total embedding maps that out-of-domain case to `""`.) -/
def hash_stable_link : FieldVal → String
  | .str s => if s ≠ "" then strTake s 100 else ""
  | _ => ""

/-- The content string built by `HashDatabaseManager.generate_content_hash`
(hash_database_manager.py lines 57-68): trimmed title, trimmed summary, and
the first-100-characters stabilizer of any truthy link — there is no
internal-scheme exclusion in this function. -/
def content_string (a : Article) : String :=
  let title := strip_field a "title"
  let summary := strip_field a "summary"
  let stable_link := hash_stable_link (getFieldD a "link")
  title ++ "|" ++ summary ++ "|" ++ stable_link

/-- `HashDatabaseManager.generate_content_hash` (lines 57-71): the md5 hex
digest of `content_string`, with the digest modelled by the parameter `md5`. -/
def generate_content_hash (md5 : String → String) (a : Article) : String :=
  md5 (content_string a)

/-- `DatabaseManager._generate_content_hash` (database_manager.py lines 84-93):
unlike the ledger's hash, this one excludes links using the synthetic
`internal://` scheme from the stabilizer. -/
def dbm_generate_content_hash (md5 : String → String)
    (title summary link : String) : String :=
  let stable_link :=
    if link ≠ "" ∧ ¬ strStartsWith link "internal://" then strTake link 100 else ""
  md5 (strTrim title ++ "|" ++ strTrim summary ++ "|" ++ stable_link)

/-- `HashDatabaseManager.get_processed_hashes` (lines 93-107):
the hashes of the `limit` most recent rows (`ORDER BY processed_at DESC LIMIT ?`). -/
def get_processed_hashes (ldg : Ledger) (limit : Nat) : List String :=
  (ldg.take limit).map (fun e => e.content_hash)

/-- `HashDatabaseManager.filter_new_articles` (lines 174-189): keep the
articles whose content hash is not among the 10000 most recent processed
hashes.  Note the hard-coded `limit=10000` and that the set of already-seen
hashes is not extended during the loop, so duplicate-hash articles within one
batch all pass. -/
def filter_new_articles (md5 : String → String) (ldg : Ledger)
    (articles : List Article) : List Article :=
  if articles = [] then []
  else
    let processed := get_processed_hashes ldg 10000
    articles.filter (fun a => ¬ generate_content_hash md5 a ∈ processed)

/-- `INSERT OR REPLACE INTO processed_hashes` on the `content_hash` primary
key: any existing row with the same hash is replaced, and the fresh row carries
`datetime.now()`, making it the most recent. -/
def upsertEntry (ldg : Ledger) (e : LedgerEntry) : Ledger :=
  e :: ldg.filter (fun x => x.content_hash ≠ e.content_hash)

/-- The row written for one article by `mark_articles_processed`
(lines 144-160): hash, the raw `article.get('title', '')` truncated to 200
characters (`title[:200]`), company label, and the raw
`article.get('link', '')`.  The company label
(`company_names.get(title, self._extract_company_name(title))`) is modelled
by the parameter `label`, since no claim depends on its value; a stored
`None` title would make the source skip the row via its inner `except`
(line 163), outside the modelled domain — the metadata columns are never read
by any theorem. -/
def entryFor (md5 : String → String) (label : Article → String) (a : Article) :
    LedgerEntry :=
  .mk (generate_content_hash md5 a)
    (match getFieldD a "title" with | .str s => strTake s 200 | _ => "")
    (label a)
    (match getFieldD a "link" with | .str s => s | _ => "")

/-- `HashDatabaseManager.mark_articles_processed` (lines 134-172): best-effort
batch upsert returning the number of rows written and the new ledger state
(in the pure embedding every write succeeds, so the count is the batch size). -/
def mark_articles_processed (md5 : String → String) (label : Article → String)
    (ldg : Ledger) (articles : List Article) : Nat × Ledger :=
  if articles = [] then (0, ldg)
  else
    articles.foldl (fun acc a => (acc.1 + 1, upsertEntry acc.2 (entryFor md5 label a)))
      (0, ldg)

/-- The `Awards/Bagging` preset rule (`PresetFilters.awards_bagging_filter`,
filter_engine.py lines 200-253): six OR-combined case-insensitive `contains`
conditions over title/summary/link. -/
def awards_bagging_filter : FilterRule :=
  .mk "Awards/Bagging"
    [ .mk "title" "award" .contains false .or
    , .mk "title" "bagging" .contains false .or
    , .mk "summary" "award" .contains false .or
    , .mk "summary" "bagging" .contains false .or
    , .mk "link" "award" .contains false .or
    , .mk "link" "bagging" .contains false .or ]
    5 true

/-- `RSSAwardsProcessor.filter_awards_articles` (processor.py lines 255-281):
apply the Awards/Bagging preset with `apply_rule` (empty input short-circuits). -/
def filter_awards_articles (E : RegexEngine) (articles : List Article) : List Article :=
  if articles = [] then [] else apply_rule E articles awards_bagging_filter

/-- The observable outcome of one `process_rss_awards` run: the new-article
batch, whether the notification step reported success, whether the ledger
commit (step 6, `mark_articles_processed`) was invoked, the resulting ledger
state, and the run's reported success flag. -/
structure RunState where
  new_articles : List Article
  email_sent : Bool
  commit_invoked : Bool
  ledger : Ledger
  success : Bool

/-- `process_rss_awards` (processor.py lines 691-790), restricted to the steps
that touch the filter engine and the ledger.  External collaborators are
parameters: `fetched` is the record list produced by step 1 (RSS acquisition),
and `sendEmail` is the boolean-returning notification collaborator of step 5
(`send_email_alert`, including its internal exception-to-False conversion).
Step 4 (financial-data enrichment) reads external services only and never
touches the ledger or the email success flag, so it is not modelled.
Step 6 runs `mark_articles_processed` only under `if email_sent:`. -/
def process_rss_awards (E : RegexEngine) (md5 : String → String)
    (label : Article → String) (sendEmail : List Article → Bool)
    (fetched : List Article) (L : Ledger) : RunState :=
  let filtered := filter_awards_articles E fetched
  let newArts := filter_new_articles md5 L filtered
  if newArts = [] then
    .mk newArts false false L true
  else
    let sent := sendEmail newArts
    if sent then
      let r := mark_articles_processed md5 label L newArts
      .mk newArts true true r.2 true
    else
      .mk newArts false false L false

/-! ## Characterizations of the `apply_rules` deduplication loop -/

/-- The concatenated stream of per-rule matches, in rule order
(rule-major, within-rule input order). -/
def matchStream (E : RegexEngine) (articles : List Article) :
    List FilterRule → List Article
  | [] => []
  | r :: rs => apply_rule E articles r ++ matchStream E articles rs

/-- Linear-pass form of the seen-set loop: keep an article iff its link key
has not been seen, adding the key when the article is emitted. -/
def dedupSeen (seen : List (Option FieldVal)) : List Article → List Article
  | [] => []
  | a :: rest =>
    if getLink a ∈ seen then dedupSeen seen rest
    else a :: dedupSeen (getLink a :: seen) rest

/-- The seen-set after a linear pass. -/
def seenAfter (seen : List (Option FieldVal)) : List Article → List (Option FieldVal)
  | [] => seen
  | a :: rest =>
    if getLink a ∈ seen then seenAfter seen rest
    else seenAfter (getLink a :: seen) rest

theorem foldl_dedupStep_eq (l : List Article) :
    ∀ (out : List Article) (seen : List (Option FieldVal)),
      l.foldl dedupStep (out, seen) = (out ++ dedupSeen seen l, seenAfter seen l) := by
  induction l with
  | nil => intro out seen; simp [dedupSeen, seenAfter]
  | cons a rest ih =>
    intro out seen
    by_cases h : getLink a ∈ seen
    · simp [List.foldl_cons, dedupStep, h, dedupSeen, seenAfter, ih]
    · simp [List.foldl_cons, dedupStep, h, dedupSeen, seenAfter, ih]

theorem rules_loop_eq_stream (E : RegexEngine) (articles : List Article)
    (rs : List FilterRule) :
    ∀ (acc : List Article × List (Option FieldVal)),
      rs.foldl (fun acc rule => (apply_rule E articles rule).foldl dedupStep acc) acc
        = (matchStream E articles rs).foldl dedupStep acc := by
  induction rs with
  | nil => intro acc; simp [matchStream]
  | cons r rs ih =>
    intro acc
    simp only [List.foldl_cons, matchStream, List.foldl_append]
    exact ih _

/-- `apply_rules` on a non-empty rule list is the seen-set linear pass over the
stream of matches of the active rules, taken in stable priority-descending
order. -/
theorem apply_rules_eq_dedup (E : RegexEngine) (articles : List Article)
    (rules : List FilterRule) (h : rules ≠ []) :
    apply_rules E articles rules =
      dedupSeen [] (matchStream E articles
        (sortRulesDesc (rules.filter (fun r => r.is_active)))) := by
  simp only [apply_rules, if_neg h]
  rw [rules_loop_eq_stream, foldl_dedupStep_eq]
  simp

theorem dedupSeen_mem_not_seen {seen : List (Option FieldVal)} {l : List Article}
    {x : Article} (hx : x ∈ dedupSeen seen l) : getLink x ∉ seen := by
  induction l generalizing seen with
  | nil => simp [dedupSeen] at hx
  | cons a rest ih =>
    by_cases h : getLink a ∈ seen
    · exact ih (by simpa [dedupSeen, h] using hx)
    · rcases (by simpa [dedupSeen, h] using hx : x = a ∨ x ∈ dedupSeen (getLink a :: seen) rest) with rfl | hx'
      · exact h
      · have := ih hx'
        intro hc
        exact this (List.mem_cons_of_mem _ hc)

theorem dedupSeen_pairwise (seen : List (Option FieldVal)) (l : List Article) :
    (dedupSeen seen l).Pairwise (fun x y => getLink x ≠ getLink y) := by
  induction l generalizing seen with
  | nil => simp [dedupSeen]
  | cons a rest ih =>
    by_cases h : getLink a ∈ seen
    · simpa [dedupSeen, h] using ih seen
    · simp only [dedupSeen, h, if_neg, List.pairwise_cons]
      constructor
      · intro y hy
        have := dedupSeen_mem_not_seen hy
        intro hc
        exact this (by simp [← hc])
      · exact ih _

theorem dedupSeen_sublist (seen : List (Option FieldVal)) (l : List Article) :
    (dedupSeen seen l).Sublist l := by
  induction l generalizing seen with
  | nil => simp [dedupSeen]
  | cons a rest ih =>
    by_cases h : getLink a ∈ seen
    · simpa [dedupSeen, h] using (ih seen).cons a
    · simpa [dedupSeen, h] using (ih (getLink a :: seen)).cons₂ a

theorem dedupSeen_find_first {seen : List (Option FieldVal)} {l : List Article}
    {x : Article} (hx : x ∈ dedupSeen seen l) :
    l.find? (fun y => decide (getLink y = getLink x)) = some x := by
  induction l generalizing seen with
  | nil => simp [dedupSeen] at hx
  | cons a rest ih =>
    by_cases h : getLink a ∈ seen
    · have hx' : x ∈ dedupSeen seen rest := by simpa [dedupSeen, h] using hx
      have hne : getLink a ≠ getLink x := by
        intro hc
        exact (dedupSeen_mem_not_seen hx') (hc ▸ h)
      simp [List.find?_cons, hne, ih hx']
    · rcases (by simpa [dedupSeen, h] using hx :
          x = a ∨ x ∈ dedupSeen (getLink a :: seen) rest) with rfl | hx'
      · simp [List.find?_cons]
      · have hne : getLink a ≠ getLink x := by
          intro hc
          exact (dedupSeen_mem_not_seen hx') (by simp [hc])
        simp [List.find?_cons, hne, ih hx']

theorem dedupSeen_covers {seen : List (Option FieldVal)} {l : List Article}
    {y : Article} (hy : y ∈ l) :
    getLink y ∈ seen ∨ ∃ x ∈ dedupSeen seen l, getLink x = getLink y := by
  induction l generalizing seen with
  | nil => simp at hy
  | cons a rest ih =>
    by_cases h : getLink a ∈ seen
    · rcases List.mem_cons.mp hy with rfl | hy'
      · exact Or.inl h
      · rcases @ih seen hy' with hs | ⟨x, hx, hkey⟩
        · exact Or.inl hs
        · exact Or.inr ⟨x, by simp [dedupSeen, h, hx], hkey⟩
    · rcases List.mem_cons.mp hy with rfl | hy'
      · exact Or.inr ⟨y, by simp [dedupSeen, h], rfl⟩
      · rcases @ih (getLink a :: seen) hy' with hs | ⟨x, hx, hkey⟩
        · rcases List.mem_cons.mp hs with heq | hs'
          · exact Or.inr ⟨a, by simp [dedupSeen, h], heq.symm⟩
          · exact Or.inl hs'
        · exact Or.inr ⟨x, by simp [dedupSeen, h, hx], hkey⟩

/-! ## The stable priority-descending sort -/

theorem mem_insertByPriority {z x : FilterRule} {l : List FilterRule} :
    z ∈ insertByPriority x l ↔ z = x ∨ z ∈ l := by
  induction l with
  | nil => simp [insertByPriority]
  | cons y ys ih =>
    by_cases h : x.priority < y.priority
    · simp only [insertByPriority, if_pos h, List.mem_cons, ih]
      tauto
    · simp [insertByPriority, if_neg h, List.mem_cons]

theorem insertByPriority_sorted {x : FilterRule} {l : List FilterRule}
    (hl : l.Pairwise (fun a b => b.priority ≤ a.priority)) :
    (insertByPriority x l).Pairwise (fun a b => b.priority ≤ a.priority) := by
  induction l with
  | nil => simp [insertByPriority]
  | cons y ys ih =>
    rcases List.pairwise_cons.mp hl with ⟨hy, hys⟩
    by_cases h : x.priority < y.priority
    · simp only [insertByPriority, if_pos h]
      refine List.pairwise_cons.mpr ⟨?_, ih hys⟩
      intro z hz
      rcases mem_insertByPriority.mp hz with rfl | hz'
      · exact le_of_lt h
      · exact hy z hz'
    · simp only [insertByPriority, if_neg h]
      refine List.pairwise_cons.mpr ⟨?_, hl⟩
      intro z hz
      rcases List.mem_cons.mp hz with rfl | hz'
      · exact le_of_not_lt h
      · exact le_trans (hy z hz') (le_of_not_lt h)

theorem sortRulesDesc_sorted (l : List FilterRule) :
    (sortRulesDesc l).Pairwise (fun a b => b.priority ≤ a.priority) := by
  induction l with
  | nil => simp [sortRulesDesc]
  | cons x xs ih => exact insertByPriority_sorted ih

theorem insertByPriority_filter_eq (x : FilterRule) (l : List FilterRule) (p : Int) :
    (insertByPriority x l).filter (fun r => r.priority == p)
      = (x :: l).filter (fun r => r.priority == p) := by
  induction l with
  | nil => simp [insertByPriority]
  | cons y ys ih =>
    by_cases h : x.priority < y.priority
    · have hxy : ¬ (x.priority = p ∧ y.priority = p) := by
        rintro ⟨rfl, hc⟩
        exact absurd h (by omega)
      by_cases hx : x.priority = p
      · have hy : (y.priority == p) = false := by
          simp only [beq_eq_false_iff_ne, ne_eq]
          intro hc
          exact hxy ⟨hx, hc⟩
        simp only [insertByPriority, if_pos h, List.filter_cons, hy]
        rw [ih]
        simp [List.filter_cons, hx, hy]
      · have hx' : (x.priority == p) = false := by simp [hx]
        simp only [insertByPriority, if_pos h, List.filter_cons]
        rw [ih]
        simp [List.filter_cons, hx']
    · simp [insertByPriority, if_neg h]

theorem sortRulesDesc_stable (l : List FilterRule) (p : Int) :
    (sortRulesDesc l).filter (fun r => r.priority == p)
      = l.filter (fun r => r.priority == p) := by
  induction l with
  | nil => simp [sortRulesDesc]
  | cons x xs ih =>
    show (insertByPriority x (sortRulesDesc xs)).filter (fun r => r.priority == p) = _
    rw [insertByPriority_filter_eq]
    simp only [List.filter_cons]
    rw [ih]

theorem insertByPriority_perm (x : FilterRule) (l : List FilterRule) :
    (insertByPriority x l).Perm (x :: l) := by
  induction l with
  | nil => simp [insertByPriority]
  | cons y ys ih =>
    by_cases h : x.priority < y.priority
    · simp only [insertByPriority, if_pos h]
      exact (ih.cons y).trans (List.Perm.swap x y ys)
    · simp [insertByPriority, if_neg h]

theorem sortRulesDesc_perm (l : List FilterRule) : (sortRulesDesc l).Perm l := by
  induction l with
  | nil => simp [sortRulesDesc]
  | cons x xs ih =>
    exact (insertByPriority_perm x (sortRulesDesc xs)).trans (ih.cons x)

/-! ## Dictionary lemmas -/

theorem find?_append_of_none {α : Type} {p : α → Bool} {l1 : List α}
    (h : l1.find? p = none) (l2 : List α) :
    (l1 ++ l2).find? p = l2.find? p := by
  induction l1 with
  | nil => simp
  | cons a rest ih =>
    by_cases hp : p a
    · rw [List.find?_cons_of_pos rest hp] at h
      exact absurd h (by simp)
    · rw [List.find?_cons_of_neg rest hp] at h
      rw [List.cons_append, List.find?_cons_of_neg _ hp]
      exact ih h

theorem find?_map_replace (f : String) (v : FieldVal) (a : Article)
    (h : a.any (fun p => p.1 == f)) :
    (a.map (fun p => if p.1 == f then (f, v) else p)).find? (fun p => p.1 == f)
      = some (f, v) := by
  induction a with
  | nil => simp at h
  | cons hd tl ih =>
    by_cases hk : hd.1 == f
    · rw [List.map_cons, if_pos hk,
        List.find?_cons_of_pos (p := fun q : String × FieldVal => q.1 == f) _ (by simp)]
    · have htl : tl.any (fun p => p.1 == f) := by
        simp only [List.any_cons, hk, Bool.false_or] at h
        exact h
      rw [List.map_cons, if_neg hk,
        List.find?_cons_of_neg (p := fun q : String × FieldVal => q.1 == f) _ hk]
      exact ih htl

theorem getField_setField_self (a : Article) (f : String) (v : FieldVal) :
    getField (setField a f v) f = some v := by
  unfold setField getField
  by_cases h : a.any (fun p => p.1 == f)
  · rw [if_pos h, find?_map_replace f v a h]
    rfl
  · have hnone : a.find? (fun p => p.1 == f) = none :=
      List.find?_eq_none.mpr (fun x hx hpx => h (List.any_eq_true.mpr ⟨x, hx, hpx⟩))
    rw [if_neg h, find?_append_of_none hnone,
      List.find?_cons_of_pos (p := fun q : String × FieldVal => q.1 == f) _ (by simp)]
    rfl

theorem find?_append_of_some {α : Type} {p : α → Bool} {l1 : List α} {x : α}
    (h : l1.find? p = some x) (l2 : List α) :
    (l1 ++ l2).find? p = some x := by
  induction l1 with
  | nil => simp at h
  | cons a rest ih =>
    by_cases hp : p a
    · rw [List.find?_cons_of_pos rest hp] at h
      rw [List.cons_append, List.find?_cons_of_pos _ hp]
      exact h
    · rw [List.find?_cons_of_neg rest hp] at h
      rw [List.cons_append, List.find?_cons_of_neg _ hp]
      exact ih h

theorem find?_map_replace_ne (g f : String) (v : FieldVal) (hfg : g ≠ f)
    (a : Article) :
    (a.map (fun p => if p.1 == g then (g, v) else p)).find? (fun p => p.1 == f)
      = a.find? (fun p => p.1 == f) := by
  induction a with
  | nil => simp
  | cons hd tl ih =>
    by_cases hk : hd.1 == g
    · have hdg : hd.1 = g := by simpa using hk
      have h1 : ¬ (fun q : String × FieldVal => q.1 == f) ((g : String), v) = true := by
        simpa using hfg
      have h2 : ¬ (fun q : String × FieldVal => q.1 == f) hd = true := by
        simp only [hdg]
        simpa using hfg
      rw [List.map_cons, if_pos hk,
        List.find?_cons_of_neg (p := fun q : String × FieldVal => q.1 == f) _ h1,
        List.find?_cons_of_neg (p := fun q : String × FieldVal => q.1 == f) _ h2]
      exact ih
    · by_cases hf : (fun q : String × FieldVal => q.1 == f) hd = true
      · rw [List.map_cons, if_neg hk,
          List.find?_cons_of_pos (p := fun q : String × FieldVal => q.1 == f) _ hf,
          List.find?_cons_of_pos (p := fun q : String × FieldVal => q.1 == f) _ hf]
      · rw [List.map_cons, if_neg hk,
          List.find?_cons_of_neg (p := fun q : String × FieldVal => q.1 == f) _ hf,
          List.find?_cons_of_neg (p := fun q : String × FieldVal => q.1 == f) _ hf]
        exact ih

theorem getField_setField_ne (a : Article) (f g : String) (v : FieldVal)
    (hfg : g ≠ f) : getField (setField a g v) f = getField a f := by
  unfold setField getField
  by_cases h : a.any (fun p => p.1 == g)
  · simp only [if_pos h, find?_map_replace_ne g f v hfg a]
  · simp only [if_neg h]
    rcases hfind : a.find? (fun p => p.1 == f) with _ | x
    · have hone : ([((g : String), v)].find? (fun p => p.1 == f)) = none := by
        rw [List.find?_cons_of_neg (p := fun q : String × FieldVal => q.1 == f) _
          (by simpa using hfg)]
        rfl
      rw [find?_append_of_none hfind, hone, hfind]
    · rw [find?_append_of_some hfind, hfind]

/-! ## Small helper lemmas -/

theorem filterMap_guard_eq {α β : Type} (p : α → Bool) (f : α → β) (l : List α) :
    l.filterMap (fun a => if p a then some (f a) else none) = (l.filter p).map f := by
  induction l with
  | nil => rfl
  | cons a rest ih =>
    by_cases h : p a
    · simp [List.filterMap_cons, List.filter_cons, h, ih]
    · simp [List.filterMap_cons, List.filter_cons, h, ih]

theorem eq_empty_of_data_eq_nil {s : String} (h : s.data = []) : s = "" := by
  cases s
  simp only at h
  subst h
  rfl

theorem strToLower_ne_empty {s : String} (h : s ≠ "") : strToLower s ≠ "" := by
  intro hc
  apply h
  apply eq_empty_of_data_eq_nil
  have : (strToLower s).data = s.data.map Char.toLower := rfl
  rw [hc] at this
  exact List.map_eq_nil_iff.mp this.symm

theorem isPrefixOf_nil_of_ne {l : List Char} (h : l ≠ []) :
    l.isPrefixOf ([] : List Char) = false := by
  cases l with
  | nil => exact absurd rfl h
  | cons c cs => rfl

/-- One step of the fold described by the specification: AND = conjunction,
OR = disjunction.  This is the spec-side fold step, compared against the
source-side `evalStep` below. -/
def specStep (E : RegexEngine) (a : Article) (acc : Bool) (c : FilterCondition) : Bool :=
  if c.operator = FilterOperator.and then acc && condResult E a c
  else acc || condResult E a c

theorem foldl_evalStep_spec (E : RegexEngine) (a : Article) :
    ∀ (cs : List FilterCondition) (acc : Bool),
      (∀ c ∈ cs, c.operator ≠ FilterOperator.not) →
      (cs.map (fun c => (condResult E a c, c.operator))).foldl evalStep acc
        = cs.foldl (specStep E a) acc := by
  intro cs
  induction cs with
  | nil => intro acc _; rfl
  | cons c cs ih =>
    intro acc h
    have hc := h c (List.mem_cons_self c cs)
    have hrest : ∀ x ∈ cs, x.operator ≠ FilterOperator.not :=
      fun x hx => h x (List.mem_cons_of_mem c hx)
    rcases hop : c.operator with _ | _ | _
    · simp only [List.map_cons, List.foldl_cons, evalStep, hop, specStep, if_pos]
      exact ih _ hrest
    · simp only [List.map_cons, List.foldl_cons, evalStep, hop, specStep]
      rw [if_neg (by simp)]
      exact ih _ hrest
    · exact absurd hop hc

/-! ## Fixtures for witnesses and counterexamples -/

/-- A regex engine that is never consulted (all fixture conditions below that
use it are non-regex). -/
def trivialEngine : RegexEngine := .mk (fun _ _ => .error "unused")

/-- An engine on which the pattern `[` fails to compile, as `re.compile("[")`
does (unbalanced bracket). -/
def badEngine : RegexEngine :=
  .mk (fun p _ => if p = "[" then .error "unbalanced bracket" else .ok (fun _ => false))

def artR : Article := [("title", .str "r-something"), ("link", .str "http://x/1")]

def ruleA : FilterRule := .mk "A" [.mk "title" "r" .contains false .and] 5 true

def ruleB : FilterRule := .mk "B" [.mk "title" "r" .contains false .and] 3 true

def inactiveRule : FilterRule := .mk "Off" [.mk "title" "r" .contains false .and] 1 false

def artW : Article := [("title", .str "b-only")]

def condA : FilterCondition := .mk "title" "b" .contains false .and

def condB : FilterCondition := .mk "title" "b" .contains false .or

def condNot : FilterCondition := .mk "title" "zzz" .contains false .not

def regexCond : FilterCondition := .mk "title" "[" .regex true .and

def artX : Article := [("title", .str "x")]

/-- Two records that both lack a `link` key entirely and both match `ruleNL`. -/
def artNL1 : Article := [("title", .str "award one")]

def artNL2 : Article := [("title", .str "award two")]

/-- A matching record whose link is present but STORED as Python `None`:
`article.get('link')` returns `None` for it, the same key as a missing link. -/
def artNull : Article := [("title", .str "award three"), ("link", FieldVal.null)]

def ruleNL : FilterRule := .mk "NL" [.mk "title" "award" .contains false .and] 2 true

/-! ## Claim C3 -/

/-- C3: for every record and every active rule with at least one condition,
the verdict of `_evaluate_rule` is the strict left-to-right fold that inverts
a condition's match result when its combinator is NOT, initializes the
accumulator with the first (possibly inverted) result, and combines each
subsequent result with that condition's own combinator (AND = conjunction,
OR = disjunction); an inactive rule or a rule without conditions evaluates to
false.  The fold hypothesis restricts the subsequent combinators to AND/OR,
the only cases to which the claim assigns a meaning. -/
theorem c3_rule_fold (E : RegexEngine) (a : Article) (rule : FilterRule)
    (h : ∀ c ∈ rule.conditions.tail, c.operator ≠ FilterOperator.not) :
    (rule.is_active = false ∨ rule.conditions = [] → evaluate_rule E a rule = false)
    ∧ (∀ c0 cs, rule.is_active = true → rule.conditions = c0 :: cs →
        evaluate_rule E a rule = cs.foldl (specStep E a) (condResult E a c0)) := by
  constructor
  · intro h0
    rcases h0 with h0 | h0 <;> simp [evaluate_rule, h0]
  · intro c0 cs hact hcond
    have hne : ¬ (rule.is_active = false ∨ rule.conditions = []) := by
      simp [hact, hcond]
    rw [evaluate_rule, if_neg hne, hcond]
    simp only [List.map_cons, evaluate_logical_expression]
    exact foldl_evalStep_spec E a cs (condResult E a c0) (by simpa [hcond] using h)

theorem c3_rule_fold_witness :
    evaluate_rule trivialEngine artW (.mk "W" [condA, condB] 1 true)
      = [condB].foldl (specStep trivialEngine artW) (condResult trivialEngine artW condA) :=
  (c3_rule_fold trivialEngine artW (.mk "W" [condA, condB] 1 true) (by decide)).2
    condA [condB] rfl rfl

/-! ## Claim C9 -/

/-- C9: a condition other than the first whose combinator is NOT never changes
the fold accumulator of `_evaluate_logical_expression` (neither the AND nor
the OR branch fires for it), so the rule's verdict equals the verdict of the
same rule with that condition removed. -/
theorem c9_not_condition_inert (E : RegexEngine) (a : Article) (nm : String)
    (pr : Int) (act : Bool) (pre : List FilterCondition) (mid : FilterCondition)
    (post : List FilterCondition) (hpre : pre ≠ [])
    (hmid : mid.operator = FilterOperator.not) :
    evaluate_rule E a (.mk nm (pre ++ mid :: post) pr act)
      = evaluate_rule E a (.mk nm (pre ++ post) pr act) := by
  obtain ⟨p0, ps, rfl⟩ := List.exists_cons_of_ne_nil hpre
  cases act with
  | false => simp [evaluate_rule]
  | true =>
    have h1 : ¬ ((true : Bool) = false ∨ (p0 :: ps) ++ mid :: post = ([] : List FilterCondition)) := by
      simp
    have h2 : ¬ ((true : Bool) = false ∨ (p0 :: ps) ++ post = ([] : List FilterCondition)) := by
      simp
    show (if (true : Bool) = false ∨ (p0 :: ps) ++ mid :: post = ([] : List FilterCondition) then false
        else evaluate_logical_expression
          (((p0 :: ps) ++ mid :: post).map (fun c => (condResult E a c, c.operator))))
      = (if (true : Bool) = false ∨ (p0 :: ps) ++ post = ([] : List FilterCondition) then false
        else evaluate_logical_expression
          (((p0 :: ps) ++ post).map (fun c => (condResult E a c, c.operator))))
    rw [if_neg h1, if_neg h2]
    simp only [List.cons_append, List.map_cons, evaluate_logical_expression,
      List.map_append, List.foldl_append, List.map_cons, List.foldl_cons]
    have hstep : ∀ b : Bool, evalStep b (condResult E a mid, mid.operator) = b := by
      intro b
      simp [evalStep, hmid]
    rw [hstep]

theorem c9_not_condition_inert_witness :
    evaluate_rule trivialEngine artW (.mk "N" ([condA] ++ condNot :: []) 1 true)
      = evaluate_rule trivialEngine artW (.mk "N" ([condA] ++ []) 1 true) :=
  c9_not_condition_inert trivialEngine artW "N" 1 true [condA] condNot []
    (by decide) rfl

/-! ## Claim C6 -/

/-- C6: when a regex condition's pattern fails to compile, `_match_condition`
returns false instead of propagating the error: the `ValueError` deliberately
raised by `_compile_regex` is caught by the blanket `except Exception` inside
`_match_condition` (filter_engine.py line 109) and converted to a non-match.
This contradicts the claim (and spec §4.2/§7), which require the
configuration error to reach the caller — the code is the slip. -/
theorem c6_regex_error_swallowed (E : RegexEngine) (a : Article)
    (c : FilterCondition) (msg : String) (hre : c.match_type = MatchType.regex)
    (hcompile : E.compile (if c.case_sensitive then c.value else strToLower c.value)
        (!c.case_sensitive) = .error msg) :
    match_condition E a c = false := by
  rcases hval : getFieldD a c.field with _ | s | n <;>
    simp [match_condition, match_on_value, hval, hre, hcompile]

theorem c6_regex_error_swallowed_witness :
    match_condition badEngine artX regexCond = false :=
  c6_regex_error_swallowed badEngine artX regexCond "unbalanced bracket" rfl rfl

/-! ## Claim C7 -/

/-- C7 counterexample: for an inactive rule, `apply_rule` does not return the
empty list the claim demands — it returns the input list unchanged (and
unannotated), because of the early `return articles` at filter_engine.py
line 153-154. -/
theorem c7_counterexample :
    apply_rule trivialEngine [artR] inactiveRule = [artR]
    ∧ [artR] ≠ ([] : List Article)
    ∧ getField artR "matched_rule" = none := by
  refine ⟨by decide, by decide, by decide⟩

/-- C7 (amended): for an ACTIVE rule, `apply_rule` returns exactly the records
for which `_evaluate_rule` is true, each annotated with the rule's name and
priority, in input order; an active rule with zero conditions matches nothing;
an INACTIVE rule, however, returns the input list unchanged rather than the
empty list. -/
theorem c7_apply_rule_contract (E : RegexEngine) (articles : List Article)
    (rule : FilterRule) :
    (rule.is_active = true →
      apply_rule E articles rule
        = (articles.filter (fun a => evaluate_rule E a rule)).map
            (fun a => tagWithRule a rule))
    ∧ (rule.is_active = true → rule.conditions = [] →
        apply_rule E articles rule = [])
    ∧ (rule.is_active = false → apply_rule E articles rule = articles)
    ∧ (rule.is_active = true → ∀ x ∈ apply_rule E articles rule,
        getField x "matched_rule" = some (.str rule.name)
        ∧ getField x "filter_priority" = some (.int rule.priority)) := by
  have hmain : rule.is_active = true →
      apply_rule E articles rule
        = (articles.filter (fun a => evaluate_rule E a rule)).map
            (fun a => tagWithRule a rule) := by
    intro hact
    rw [apply_rule, if_neg (by simp [hact])]
    exact filterMap_guard_eq _ _ articles
  refine ⟨hmain, ?_, ?_, ?_⟩
  · intro hact hc
    rw [hmain hact]
    have hz : articles.filter (fun a => evaluate_rule E a rule) = [] := by
      rw [List.filter_eq_nil_iff]
      intro a _
      simp [evaluate_rule, hc]
    rw [hz]
    rfl
  · intro hact
    rw [apply_rule, if_pos hact]
  · intro hact x hx
    rw [hmain hact] at hx
    rcases List.mem_map.mp hx with ⟨b, _, rfl⟩
    constructor
    · rw [tagWithRule, getField_setField_ne _ _ _ _ (by decide),
        getField_setField_self]
    · rw [tagWithRule, getField_setField_self]

theorem c7_apply_rule_contract_witness :
    apply_rule trivialEngine [artR] ruleA
      = (([artR] : List Article).filter (fun a => evaluate_rule trivialEngine a ruleA)).map
          (fun a => tagWithRule a ruleA) :=
  (c7_apply_rule_contract trivialEngine [artR] ruleA).1 rfl

/-! ## Claim C8 -/

/-- C8 counterexample: a condition whose field is MISSING from the record but
whose value is the empty string matches (Python `'' in ''` is `True`): the
missing field defaults to `''` via `article.get(condition.field, '')`, and the
empty condition value is a substring of it — the matcher returns true, not the
false the claim demands. -/
theorem c8_counterexample :
    getField ([] : Article) "title" = none
    ∧ match_condition trivialEngine [] (.mk "title" "" .contains false .and) = true := by
  refine ⟨rfl, by decide⟩

/-- C8 (amended): when the condition's field is missing from the record, the
matcher treats the field as the empty string (the `.get(field, '')` default)
and — being total — never raises; with a NON-EMPTY condition value it returns
false for the contains / exact / starts_with / ends_with match types.  (With
an empty condition value the match can succeed, as the counterexample shows.) -/
theorem c8_missing_field (E : RegexEngine) (a : Article) (c : FilterCondition)
    (hmiss : getField a c.field = none) :
    match_condition E a c = match_on_value E (.str "") c
    ∧ (c.value ≠ "" →
        (c.match_type = MatchType.contains ∨ c.match_type = MatchType.exact ∨
         c.match_type = MatchType.starts_with ∨ c.match_type = MatchType.ends_with) →
        match_condition E a c = false) := by
  have hget : getFieldD a c.field = .str "" := by
    rw [getFieldD, hmiss]
    rfl
  have hmain : match_condition E a c = match_on_value E (.str "") c := by
    rw [match_condition, hget]
  refine ⟨hmain, ?_⟩
  intro hv hmt
  rw [hmain]
  have hfs : (if c.case_sensitive then fieldValStr (.str "") else strToLower (fieldValStr (.str ""))) = "" := by
    cases c.case_sensitive <;> rfl
  have hcv : (if c.case_sensitive then c.value else strToLower c.value) ≠ "" := by
    cases hcs : c.case_sensitive
    · simpa using strToLower_ne_empty hv
    · simpa using hv
  have hdata : (if c.case_sensitive then c.value else strToLower c.value).data ≠ [] :=
    fun hd => hcv (eq_empty_of_data_eq_nil hd)
  rcases hmt with h | h | h | h <;>
    simp only [match_on_value, h, hfs]
  · show strContainsSub "" _ = false
    rw [strContainsSub]
    show infixAux _ [] = false
    rw [infixAux]
    cases hd : (if c.case_sensitive then c.value else strToLower c.value).data
    · exact absurd hd hdata
    · rfl
  · show ("" == _) = false
    rw [beq_eq_false_iff_ne]
    exact fun hc => hcv hc.symm
  · show strStartsWith "" _ = false
    rw [strStartsWith]
    exact isPrefixOf_nil_of_ne hdata
  · show strEndsWith "" _ = false
    rw [strEndsWith]
    show List.isPrefixOf _ (List.reverse ([] : List Char)) = false
    rw [List.reverse_nil]
    exact isPrefixOf_nil_of_ne (by simpa using hdata)

theorem c8_missing_field_witness :
    match_condition trivialEngine [] (.mk "title" "x" .contains false .and) = false :=
  ((c8_missing_field trivialEngine [] (.mk "title" "x" .contains false .and) rfl).2
    (by decide) (Or.inl rfl))

/-! ## Claim C2 -/

/-- C2 counterexample: `apply_rules` with the EMPTY rule list returns the input
records unchanged and unannotated (the `if not rules: return articles` guard at
filter_engine.py lines 176-177), not the empty output that "evaluates the
remaining rules and emits matches" implies for zero rules. -/
theorem c2_counterexample :
    apply_rules trivialEngine [artR] [] = [artR]
    ∧ [artR] ≠ ([] : List Article)
    ∧ getField artR "matched_rule" = none := by
  refine ⟨by decide, by decide, by decide⟩

/-- C2 (amended): for every NON-EMPTY list of rules, `apply_rules` drops
inactive rules, evaluates the remainder in stable priority-descending order
(ties keep declaration order — conjuncts 2-4: sorted, a permutation of the
active rules, and filter-stable at every priority), and runs the seen-set
pass over the concatenated match stream (conjunct 1), so the output is a
link-deduplicated sublist of the stream in rule-priority-major, input-minor
order (conjuncts 5-6); in particular rules A (priority 5) and B (priority 3)
both matching record R yield exactly one copy of R, tagged with A
(conjunct 7).  (With an empty rule list the source returns the input
unchanged.) -/
theorem c2_apply_rules_pipeline (E : RegexEngine) (articles : List Article)
    (rules : List FilterRule) (h : rules ≠ []) :
    apply_rules E articles rules
        = dedupSeen [] (matchStream E articles
            (sortRulesDesc (rules.filter (fun r => r.is_active))))
    ∧ (sortRulesDesc (rules.filter (fun r => r.is_active))).Pairwise
        (fun a b => b.priority ≤ a.priority)
    ∧ (sortRulesDesc (rules.filter (fun r => r.is_active))).Perm
        (rules.filter (fun r => r.is_active))
    ∧ (∀ p : Int, (sortRulesDesc (rules.filter (fun r => r.is_active))).filter
          (fun r => r.priority == p)
        = (rules.filter (fun r => r.is_active)).filter (fun r => r.priority == p))
    ∧ (apply_rules E articles rules).Sublist
        (matchStream E articles (sortRulesDesc (rules.filter (fun r => r.is_active))))
    ∧ (apply_rules E articles rules).Pairwise (fun x y => getLink x ≠ getLink y)
    ∧ apply_rules trivialEngine [artR] [ruleA, ruleB] = [tagWithRule artR ruleA] := by
  have hd := apply_rules_eq_dedup E articles rules h
  refine ⟨hd, sortRulesDesc_sorted _, sortRulesDesc_perm _,
    fun p => sortRulesDesc_stable _ p, ?_, ?_, by decide⟩
  · rw [hd]
    exact dedupSeen_sublist _ _
  · rw [hd]
    exact dedupSeen_pairwise _ _

theorem c2_apply_rules_pipeline_witness :
    apply_rules trivialEngine [artR] [ruleA, ruleB]
      = dedupSeen [] (matchStream trivialEngine [artR]
          (sortRulesDesc ([ruleA, ruleB].filter (fun r => r.is_active)))) :=
  (c2_apply_rules_pipeline trivialEngine [artR] [ruleA, ruleB] (by decide)).1

/-! ## Claim C10 -/

/-- C10: the seen-set of `apply_rules` is keyed solely by `article.get('link')`
(`Option.none` both when the record has no link and when the link is stored
`None`, as in Python): the output keys are pairwise distinct (conjunct 1),
every emitted record is the FIRST record with its link value in the
priority-major, input-minor match stream (conjunct 2), every stream record's
link value is represented (conjunct 3), two matching records that both lack a
link collapse to the first one (conjunct 4), and a stored-`None` link shares
its key with a missing link, so the later record is suppressed too
(conjunct 5). -/
theorem c10_dedup_keyed_by_link (E : RegexEngine) (articles : List Article)
    (rules : List FilterRule) (h : rules ≠ []) :
    (apply_rules E articles rules).Pairwise (fun x y => getLink x ≠ getLink y)
    ∧ (∀ x ∈ apply_rules E articles rules,
        (matchStream E articles (sortRulesDesc (rules.filter (fun r => r.is_active)))).find?
            (fun y => decide (getLink y = getLink x)) = some x)
    ∧ (∀ y ∈ matchStream E articles (sortRulesDesc (rules.filter (fun r => r.is_active))),
        ∃ x ∈ apply_rules E articles rules, getLink x = getLink y)
    ∧ apply_rules trivialEngine [artNL1, artNL2] [ruleNL]
        = [tagWithRule artNL1 ruleNL]
    ∧ apply_rules trivialEngine [artNull, artNL1] [ruleNL]
        = [tagWithRule artNull ruleNL] := by
  have hd := apply_rules_eq_dedup E articles rules h
  refine ⟨?_, ?_, ?_, by decide, by decide⟩
  · rw [hd]
    exact dedupSeen_pairwise _ _
  · intro x hx
    rw [hd] at hx
    exact dedupSeen_find_first hx
  · intro y hy
    rcases @dedupSeen_covers [] _ _ hy with hs | ⟨x, hx, hk⟩
    · simp at hs
    · exact ⟨x, by rw [hd]; exact hx, hk⟩

theorem c10_dedup_keyed_by_link_witness :
    apply_rules trivialEngine [artNL1, artNL2] [ruleNL]
      = [tagWithRule artNL1 ruleNL] :=
  (c10_dedup_keyed_by_link trivialEngine [artNL1, artNL2] [ruleNL] (by decide)).2.2.2.1

/-! ## Claim C1 -/

def artSynth : Article :=
  [("title", .str "t"), ("summary", .str "s"), ("link", .str "internal://f/x")]

def artNoLink : Article := [("title", .str "t"), ("summary", .str "s"), ("link", .str "")]

/-- C1 counterexample: the LEDGER's fingerprint (`generate_content_hash` of
hash_database_manager.py) has no internal-scheme exclusion: for a record whose
link uses the synthetic `internal://` scheme, the stabilizer is the link's
first 100 characters, not the empty string the claim asserts, and the
fingerprint (digest modelled as the identity) differs from the empty-link
fingerprint — the synthesized link DOES influence the ledger fingerprint. -/
theorem c1_counterexample :
    content_string artSynth = "t|s|internal://f/x"
    ∧ content_string artSynth ≠ "t|s|"
    ∧ generate_content_hash id artSynth ≠ generate_content_hash id artNoLink := by
  refine ⟨by decide, by decide, by decide⟩

/-- C1 (amended): the ledger's `generate_content_hash` uses an empty
stabilizer exactly when the raw `article.get('link', '')` is falsy — a stored
`None`, the `''` default for a missing key, or the empty string (conjunct 1) —
and for any non-empty string link it uses the link's first 100 characters
regardless of scheme (conjunct 2); the internal-scheme exclusion lives only in
`DatabaseManager._generate_content_hash` (conjunct 3); and re-hashing a record
with the same raw title/summary/link values always yields the same fingerprint
— the function is deterministic, with no randomness or time dependence
(conjunct 4). -/
theorem c1_fingerprint_stabilizer (md5 : String → String) (a b : Article)
    (t s l : String) :
    (getFieldD a "link" = .null ∨ getFieldD a "link" = .str "" →
      content_string a = strip_field a "title" ++ "|" ++ strip_field a "summary" ++ "|")
    ∧ (∀ ls : String, getFieldD a "link" = .str ls → ls ≠ "" →
      content_string a
        = strip_field a "title" ++ "|" ++ strip_field a "summary" ++ "|"
            ++ strTake ls 100)
    ∧ (strStartsWith l "internal://" = true →
        dbm_generate_content_hash md5 t s l = md5 (strTrim t ++ "|" ++ strTrim s ++ "|"))
    ∧ (getFieldD a "title" = getFieldD b "title" →
        getFieldD a "summary" = getFieldD b "summary" →
        getFieldD a "link" = getFieldD b "link" →
        generate_content_hash md5 a = generate_content_hash md5 b) := by
  refine ⟨?_, ?_, ?_, ?_⟩
  · intro h
    rcases h with h | h <;> simp [content_string, hash_stable_link, h]
  · intro ls h hne
    simp [content_string, hash_stable_link, h, hne]
  · intro h
    rw [dbm_generate_content_hash]
    rw [if_neg (by simp [h])]
    simp
  · intro h1 h2 h3
    simp only [generate_content_hash, content_string, strip_field, h1, h2, h3]

theorem c1_fingerprint_stabilizer_witness :
    content_string artNoLink
      = strip_field artNoLink "title" ++ "|" ++ strip_field artNoLink "summary" ++ "|" :=
  (c1_fingerprint_stabilizer id artNoLink artNoLink "" "" "").1 (Or.inr (by decide))

/-! ## Claim C4 -/

def artAw : Article :=
  [("title", .str "Wins AWARD"), ("summary", .str "s"), ("link", .str "http://a/1")]

/-- C4: in `process_rss_awards`, the ledger commit (step 6,
`mark_articles_processed`) runs only under `if email_sent:`: whenever the
notification step reports failure on a non-empty new-article batch, the commit
is never invoked, the run's ledger state is unchanged, the run reports
failure, and a subsequent `filterNew` over the same batch against the run's
ledger returns the same non-empty set. -/
theorem c4_commit_gated_on_notify (E : RegexEngine) (md5 : String → String)
    (label : Article → String) (sendEmail : List Article → Bool)
    (fetched : List Article) (L : Ledger)
    (hne : filter_new_articles md5 L (filter_awards_articles E fetched) ≠ [])
    (hsend : sendEmail (filter_new_articles md5 L (filter_awards_articles E fetched)) = false) :
    (process_rss_awards E md5 label sendEmail fetched L).commit_invoked = false
    ∧ (process_rss_awards E md5 label sendEmail fetched L).email_sent = false
    ∧ (process_rss_awards E md5 label sendEmail fetched L).ledger = L
    ∧ (process_rss_awards E md5 label sendEmail fetched L).success = false
    ∧ filter_new_articles md5 (process_rss_awards E md5 label sendEmail fetched L).ledger
        (filter_awards_articles E fetched)
      = (process_rss_awards E md5 label sendEmail fetched L).new_articles
    ∧ (process_rss_awards E md5 label sendEmail fetched L).new_articles ≠ [] := by
  have hrun : process_rss_awards E md5 label sendEmail fetched L
      = .mk (filter_new_articles md5 L (filter_awards_articles E fetched))
          false false L false := by
    simp only [process_rss_awards]
    rw [if_neg hne, hsend]
    simp
  rw [hrun]
  exact ⟨rfl, rfl, rfl, rfl, rfl, hne⟩

theorem c4_commit_gated_on_notify_witness :
    (process_rss_awards trivialEngine id (fun _ => "") (fun _ => false) [artAw] []).ledger
      = ([] : Ledger) :=
  (c4_commit_gated_on_notify trivialEngine id (fun _ => "") (fun _ => false)
    [artAw] [] (by decide) rfl).2.2.1

/-! ## Claim C5: ledger lemmas -/

/-- The ledger produced by upserting one row per article, in batch order. -/
def upsertAll (md5 : String → String) (label : Article → String)
    (ldg : Ledger) (articles : List Article) : Ledger :=
  articles.foldl (fun ldg a => upsertEntry ldg (entryFor md5 label a)) ldg

theorem mark_snd (md5 : String → String) (label : Article → String)
    (articles : List Article) (ldg : Ledger) :
    (mark_articles_processed md5 label ldg articles).2
      = upsertAll md5 label ldg articles := by
  rw [mark_articles_processed]
  by_cases h : articles = []
  · subst h
    rfl
  · rw [if_neg h]
    suffices H : ∀ (l : List Article) (n : Nat) (ldg : Ledger),
        (l.foldl (fun acc a => (acc.1 + 1, upsertEntry acc.2 (entryFor md5 label a)))
          (n, ldg)).2 = upsertAll md5 label ldg l from H articles 0 ldg
    intro l
    induction l with
    | nil => intro n ldg; rfl
    | cons a rest ih =>
      intro n ldg
      simp only [List.foldl_cons, upsertAll]
      exact ih (n + 1) (upsertEntry ldg (entryFor md5 label a))

theorem mem_hash_upsert {h : String} {ldg : Ledger} {e : LedgerEntry}
    (hm : h ∈ ldg.map (fun x => x.content_hash)) :
    h ∈ (upsertEntry ldg e).map (fun x => x.content_hash) := by
  by_cases hc : h = e.content_hash
  · subst hc
    simp [upsertEntry]
  · rcases List.mem_map.mp hm with ⟨x, hx, rfl⟩
    apply List.mem_map.mpr
    refine ⟨x, ?_, rfl⟩
    apply List.mem_cons_of_mem
    apply List.mem_filter.mpr
    exact ⟨hx, by simpa using hc⟩

theorem mem_hash_upsertAll_mono (md5 : String → String) (label : Article → String)
    (articles : List Article) {h : String} :
    ∀ {ldg : Ledger}, h ∈ ldg.map (fun x => x.content_hash) →
      h ∈ (upsertAll md5 label ldg articles).map (fun x => x.content_hash) := by
  induction articles with
  | nil => intro ldg hm; exact hm
  | cons a rest ih =>
    intro ldg hm
    simp only [upsertAll, List.foldl_cons]
    exact ih (mem_hash_upsert hm)

theorem marked_mem (md5 : String → String) (label : Article → String)
    {articles : List Article} {a : Article} (ha : a ∈ articles) :
    ∀ ldg : Ledger,
      generate_content_hash md5 a
        ∈ (upsertAll md5 label ldg articles).map (fun x => x.content_hash) := by
  induction articles with
  | nil => simp at ha
  | cons b rest ih =>
    intro ldg
    simp only [upsertAll, List.foldl_cons]
    rcases List.mem_cons.mp ha with rfl | ha'
    · have h0 : generate_content_hash md5 a
          ∈ (upsertEntry ldg (entryFor md5 label a)).map (fun x => x.content_hash) := by
        apply List.mem_map.mpr
        exact ⟨entryFor md5 label a, by simp [upsertEntry], rfl⟩
      exact mem_hash_upsertAll_mono md5 label rest h0
    · exact ih ha' (upsertEntry ldg (entryFor md5 label b))

theorem upsert_length (ldg : Ledger) (e : LedgerEntry) :
    (upsertEntry ldg e).length ≤ ldg.length + 1 := by
  have := List.length_filter_le (fun x => x.content_hash ≠ e.content_hash) ldg
  simp only [upsertEntry, List.length_cons]
  omega

theorem upsertAll_length (md5 : String → String) (label : Article → String)
    (articles : List Article) :
    ∀ ldg : Ledger,
      (upsertAll md5 label ldg articles).length ≤ ldg.length + articles.length := by
  induction articles with
  | nil => intro ldg; simp [upsertAll]
  | cons a rest ih =>
    intro ldg
    simp only [upsertAll, List.foldl_cons, List.length_cons]
    have h1 := ih (upsertEntry ldg (entryFor md5 label a))
    have h2 := upsert_length ldg (entryFor md5 label a)
    simp only [upsertAll] at h1
    omega

/-- C5 (amended): the filterNew–markMany–filterNew round trip yields an empty
second result whenever the marked ledger still fits inside the 10000-row
recency window that `filter_new_articles` consults (hash_database_manager.py
line 180, `limit=10000`).  Without that bound the round trip can fail: see the
counterexample. -/
theorem c5_dedup_idempotent (md5 : String → String) (label : Article → String)
    (L : Ledger) (B : List Article)
    (hsize : L.length + (filter_new_articles md5 L B).length ≤ 10000) :
    filter_new_articles md5
      (mark_articles_processed md5 label L (filter_new_articles md5 L B)).2 B = [] := by
  by_cases hB : B = []
  · subst hB
    rfl
  · have hLlen : L.length ≤ 10000 := le_trans (Nat.le_add_right _ _) hsize
    rw [mark_snd]
    have hlen2 : (upsertAll md5 label L (filter_new_articles md5 L B)).length ≤ 10000 :=
      le_trans (upsertAll_length md5 label _ L) hsize
    have hwin2 : get_processed_hashes (upsertAll md5 label L (filter_new_articles md5 L B)) 10000
        = (upsertAll md5 label L (filter_new_articles md5 L B)).map (fun e => e.content_hash) := by
      rw [get_processed_hashes, List.take_of_length_le hlen2]
    have hall : ∀ b ∈ B, generate_content_hash md5 b
        ∈ get_processed_hashes (upsertAll md5 label L (filter_new_articles md5 L B)) 10000 := by
      intro b hb
      rw [hwin2]
      by_cases hmem : generate_content_hash md5 b ∈ get_processed_hashes L 10000
      · rw [get_processed_hashes, List.take_of_length_le hLlen] at hmem
        exact mem_hash_upsertAll_mono md5 label _ hmem
      · have hbR : b ∈ filter_new_articles md5 L B := by
          rw [filter_new_articles, if_neg hB]
          exact List.mem_filter.mpr ⟨hb, by simpa using hmem⟩
        exact marked_mem md5 label hbR L
    rw [filter_new_articles, if_neg hB]
    rw [List.filter_eq_nil_iff]
    intro b hb
    simpa using hall b hb

theorem c5_dedup_idempotent_witness :
    filter_new_articles id
      (mark_articles_processed id (fun _ => "") []
        (filter_new_articles id [] [artR])).2 [artR] = [] :=
  c5_dedup_idempotent id (fun _ => "") [] [artR] (by decide)

/-! ## Claim C5: counterexample (recency-window overflow) -/

/-- A string of `n` copies of `c` — 10000 pairwise-distinct primary keys. -/
def cstr (n : Nat) : String := String.mk (List.replicate n 'c')

/-- A full recency window: 10000 rows with distinct hashes, oldest last. -/
def bigLedger : Ledger := (List.range 10000).map (fun i => .mk (cstr (i + 1)) "" "" "")

def artNew5 : Article := [("title", .str "t1")]

def artOld5 : Article := [("title", .str "t2")]

/-- A digest choice under which `artNew5` hashes to `"d"` and `artOld5` hashes
to the oldest ledger row's key. -/
def cexMd5 : String → String := fun s => if s = "t1||" then "d" else cstr 10000

theorem cstr_length (n : Nat) : (cstr n).length = n := by
  show (List.replicate n 'c').length = n
  exact List.length_replicate n 'c'

theorem cstr_ne_d (n : Nat) : cstr n ≠ "d" := by
  by_cases h : n = 1
  · subst h
    decide
  · intro hc
    have hlen := congrArg String.length hc
    rw [cstr_length] at hlen
    exact h hlen

theorem cstr_inj {m n : Nat} (h : cstr m = cstr n) : m = n := by
  have := congrArg String.length h
  rwa [cstr_length, cstr_length] at this

theorem bigLedger_length : bigLedger.length = 10000 := by
  simp [bigLedger]

theorem bigLedger_hashes :
    bigLedger.map (fun e => e.content_hash)
      = (List.range 10000).map (fun i => cstr (i + 1)) := by
  simp only [bigLedger, List.map_map]
  rfl

theorem hash_artNew5 : generate_content_hash cexMd5 artNew5 = "d" := by decide

theorem hash_artOld5 : generate_content_hash cexMd5 artOld5 = cstr 10000 := by
  show cexMd5 (content_string artOld5) = cstr 10000
  rw [show content_string artOld5 = "t2||" from by decide]
  show (if ("t2||" : String) = "t1||" then "d" else cstr 10000) = cstr 10000
  rw [if_neg (by decide)]

theorem c5cex_window1 :
    get_processed_hashes bigLedger 10000
      = (List.range 10000).map (fun i => cstr (i + 1)) := by
  rw [get_processed_hashes, List.take_of_length_le (le_of_eq bigLedger_length),
    bigLedger_hashes]

theorem c5cex_d_notin_w1 :
    ("d" : String) ∉ (List.range 10000).map (fun i => cstr (i + 1)) := by
  intro hm
  rcases List.mem_map.mp hm with ⟨i, _, hc⟩
  exact cstr_ne_d (i + 1) hc

theorem c5cex_old_in_w1 :
    cstr 10000 ∈ (List.range 10000).map (fun i => cstr (i + 1)) :=
  List.mem_map.mpr ⟨9999, List.mem_range.mpr (by omega), rfl⟩

theorem c5cex_R :
    filter_new_articles cexMd5 bigLedger [artNew5, artOld5] = [artNew5] := by
  rw [filter_new_articles, if_neg (by decide)]
  simp only [List.filter_cons, List.filter_nil, hash_artNew5, hash_artOld5,
    c5cex_window1, decide_eq_true_eq]
  rw [if_pos c5cex_d_notin_w1, if_neg (not_not_intro c5cex_old_in_w1)]

theorem upsertAll_singleton (md5 : String → String) (label : Article → String)
    (ldg : Ledger) (a : Article) :
    upsertAll md5 label ldg [a] = upsertEntry ldg (entryFor md5 label a) := rfl

theorem c5cex_filter_id :
    bigLedger.filter
      (fun x => x.content_hash ≠ (entryFor cexMd5 (fun _ => "") artNew5).content_hash)
      = bigLedger := by
  apply List.filter_eq_self.mpr
  intro e he
  rcases List.mem_map.mp (by simpa [bigLedger] using he :
      e ∈ (List.range 10000).map (fun i => (LedgerEntry.mk (cstr (i + 1)) "" "" ""))) with
    ⟨i, _, rfl⟩
  have hne : cstr (i + 1) ≠ (entryFor cexMd5 (fun _ => "") artNew5).content_hash := by
    show cstr (i + 1) ≠ generate_content_hash cexMd5 artNew5
    rw [hash_artNew5]
    exact cstr_ne_d (i + 1)
  simpa using hne

theorem c5cex_L2 :
    (mark_articles_processed cexMd5 (fun _ => "") bigLedger [artNew5]).2
      = entryFor cexMd5 (fun _ => "") artNew5 :: bigLedger := by
  rw [mark_snd, upsertAll_singleton, upsertEntry, c5cex_filter_id]

theorem c5cex_take9999 :
    bigLedger.take 9999
      = (List.range 9999).map (fun i => (LedgerEntry.mk (cstr (i + 1)) "" "" "")) := by
  rw [bigLedger, ← List.map_take, List.take_range 9999 10000,
    show min 9999 10000 = 9999 from rfl]

theorem c5cex_window2 :
    get_processed_hashes (entryFor cexMd5 (fun _ => "") artNew5 :: bigLedger) 10000
      = "d" :: (List.range 9999).map (fun i => cstr (i + 1)) := by
  have htake : (entryFor cexMd5 (fun _ => "") artNew5 :: bigLedger).take 10000
      = entryFor cexMd5 (fun _ => "") artNew5 :: bigLedger.take 9999 :=
    List.take_succ_cons
  have hh : (entryFor cexMd5 (fun _ => "") artNew5).content_hash = "d" := hash_artNew5
  rw [get_processed_hashes, htake, List.map_cons, hh, c5cex_take9999, List.map_map]
  rfl

theorem c5cex_old_notin_w2 :
    cstr 10000 ∉ ("d" :: (List.range 9999).map (fun i => cstr (i + 1))) := by
  intro hm
  rcases List.mem_cons.mp hm with hc | hm'
  · exact cstr_ne_d 10000 hc
  · rcases List.mem_map.mp hm' with ⟨i, hi, hc⟩
    have h1 := cstr_inj hc
    have h2 := List.mem_range.mp hi
    omega

/-- C5 counterexample: with a full 10000-row recency window (primary keys
pairwise distinct, conjunct 3), a batch containing one genuinely new record
and one record whose fingerprint equals the OLDEST window row: the first
`filterNew` keeps only the new record, `markMany` pushes the window past
10000 rows, evicting the oldest hash from the window `filterNew` consults, so
the second `filterNew` on the same batch returns the old record again —
not the empty list the claim demands for every batch and ledger state. -/
theorem c5_counterexample :
    filter_new_articles cexMd5
        (mark_articles_processed cexMd5 (fun _ => "") bigLedger
          (filter_new_articles cexMd5 bigLedger [artNew5, artOld5])).2
        [artNew5, artOld5]
      = [artOld5]
    ∧ [artOld5] ≠ ([] : List Article)
    ∧ bigLedger.Pairwise (fun x y => x.content_hash ≠ y.content_hash) := by
  refine ⟨?_, by decide, ?_⟩
  · rw [c5cex_R, c5cex_L2, filter_new_articles, if_neg (by decide)]
    simp only [List.filter_cons, List.filter_nil, hash_artNew5, hash_artOld5,
      c5cex_window2, decide_eq_true_eq]
    have hn1 : ¬ ¬ (("d" : String)
        ∈ ("d" :: (List.range 9999).map (fun i => cstr (i + 1)))) :=
      not_not_intro (List.mem_cons_self _ _)
    rw [if_neg hn1, if_pos c5cex_old_notin_w2]
  · simp only [bigLedger]
    rw [List.pairwise_map]
    apply List.Pairwise.imp ?_ (List.pairwise_lt_range 10000)
    intro i j hij
    intro hc
    have := cstr_inj hc
    omega

end MarketNewsMail
